import Mathlib

/-!
Shallow embedding of the `tinytoolkit/migrate` migration engine
(`src/migrate.go`, both the pgx and the sqlite variant implement the same
algorithm; the sqlite variant, whose transaction also carries the ledger
table, is the one embedded here).

Modelling conventions:
- The schema acted on by the forward (`Up`) and reverse (`Down`) operations
  is an abstract type `σ`; an operation is an optional function
  `σ → Except String σ` (a `nil` Go function is `none`, a failing call is
  `Except.error`).
- The ledger table is a `List LedgerEntry` in row-insertion order; the SQL
  queries over it (`ORDER BY version ASC/DESC`, `INSERT` with its UNIQUE
  constraints, `DELETE ... WHERE version = ?`) are embedded as list
  functions below.
- One `MigrateUp`/`MigrateDown` call runs inside a single transaction with
  `defer tx.Rollback()`: the run threads a tentative `DBState` and its
  result is committed only on `Except.ok`; on any error the database is
  left at the initial state.  `CREATE TABLE IF NOT EXISTS` is a no-op in
  the model (the list is the table).
- Go's `uint` arithmetic in `index[i]-1` is modelled exactly: subtraction
  wraps modulo `2 ^ 64`, and an index outside the slice bounds is a panic,
  a distinguished outcome (`DownResult.panic`), not an error value.
- Besides the engine result, each run returns the list of migration
  versions whose forward (resp. reverse) Go function was invoked during
  the run, in invocation order.  This models what a Go caller observes
  through side effects of the closures themselves (invocation is
  observable even when the transaction is later rolled back); it does not
  alter the control flow being embedded.
-/

/-- Migration mirrors the Go struct `Migration`: a version, a description
and optional forward / reverse operations acting on the schema `σ`. -/
structure Migration (σ : Type) where
  Version : Nat
  Description : String
  Up : Option (σ → Except String σ)
  Down : Option (σ → Except String σ)

/-- Migrations mirrors the Go type `Migrations []Migration`. -/
abbrev Migrations (σ : Type) := List (Migration σ)

/-- leByVersion is the sort order of `Migrations.Sorted`: ascending by
version (`sort.Slice` with `Version <` as the less function).  The claims
below only concern sets with distinct versions, for which every correct
sort produces the same list, so the concrete algorithm is irrelevant;
insertion sort is used because it reduces definitionally. -/
def leByVersion {σ : Type} (a b : Migration σ) : Prop :=
  a.Version ≤ b.Version

instance {σ : Type} : DecidableRel (@leByVersion σ) :=
  fun a b => Nat.decLe a.Version b.Version

instance {σ : Type} : IsTotal (Migration σ) leByVersion :=
  ⟨fun a b => Nat.le_total a.Version b.Version⟩

instance {σ : Type} : IsTrans (Migration σ) leByVersion :=
  ⟨fun _ _ _ hab hbc => Nat.le_trans hab hbc⟩

/-- Sorted embeds `Migrations.Sorted`: a fresh slice, sorted ascending by
version; the source collection is not mutated. -/
def Sorted {σ : Type} (ms : Migrations σ) : List (Migration σ) :=
  List.insertionSort leByVersion ms

/-- LedgerEntry is one row of the migration table: columns `version` and
`description` (the surrogate `id` column plays no role in the logic). -/
structure LedgerEntry where
  version : Nat
  description : String
deriving DecidableEq, Repr

/-- DBState is the database state seen through one connection: the ledger
table rows in insertion order, and the abstract schema `σ` that the
migration operations act on. -/
structure DBState (σ : Type) where
  ledger : List LedgerEntry
  schema : σ
deriving DecidableEq

/-- migrationIndex embeds `getMigrationIndex`:
`SELECT version FROM <table> ORDER BY version ASC`. -/
def migrationIndex (ledger : List LedgerEntry) : List Nat :=
  List.insertionSort (fun a b => a ≤ b) (ledger.map (fun e => e.version))

/-- insertMigration embeds `insertMigration`: `INSERT INTO <table>
(version, description) VALUES (?, ?)` against a table whose `version` and
`description` columns are both UNIQUE; a duplicate in either column is a
constraint-violation error, otherwise the row is appended. -/
def insertMigration (ledger : List LedgerEntry) (v : Nat) (d : String) :
    Except String (List LedgerEntry) :=
  if ledger.any (fun e => e.version == v) || ledger.any (fun e => e.description == d) then
    Except.error "UNIQUE constraint failed"
  else
    Except.ok (ledger ++ [{ version := v, description := d }])

/-- deleteMigration embeds `deleteMigration`:
`DELETE FROM <table> WHERE version = ?` (succeeds even when no row matches). -/
def deleteMigration (ledger : List LedgerEntry) (v : Nat) : List LedgerEntry :=
  ledger.filter (fun e => !(e.version == v))

/-- CurrentVersion embeds `CurrentVersion`: `SELECT version FROM <table>
ORDER BY version DESC LIMIT 1`, returning 0 when the table has no rows. -/
def CurrentVersion (ledger : List LedgerEntry) : Nat :=
  match List.insertionSort (fun a b => b ≤ a) (ledger.map (fun e => e.version)) with
  | [] => 0
  | v :: _ => v

/-- errInvalidVersionDesc is the Go error string for a record failing the
version/description validation. -/
def errInvalidVersionDesc : String :=
  "invalid migration: version and description must be set"

/-- errInvalidUpDown is the Go error string for a record with a nil
forward or reverse function. -/
def errInvalidUpDown : String :=
  "invalid migration: up and down must be set"

/-- errNoMigrations is the Go error string returned by `MigrateDown` when
the applied index is empty. -/
def errNoMigrations : String :=
  "no migrations to rollback"

/-- errNotExists renders the Go error
`migration (version=%v, description=%s) doesn't exists`. -/
def errNotExists {σ : Type} (m : Migration σ) : String :=
  "migration (version=" ++ toString m.Version ++ ", description=" ++
    m.Description ++ ") doesn't exists"

/-- upGo is the loop body of `MigrateUp` over the sorted migration list,
threading the tentative in-transaction state.  `index` is the applied
index read once at the start of the run.  The second component of the
result is the list of versions whose `Up` function was invoked. -/
def upGo {σ : Type} (index : List Nat) :
    List (Migration σ) → DBState σ → Except String (DBState σ) × List Nat
  | [], st => (Except.ok st, [])
  | m :: rest, st =>
    if m.Version = 0 ∨ m.Description = "" then
      (Except.error errInvalidVersionDesc, [])
    else
      match m.Up, m.Down with
      | some up, some _ =>
        if index.contains m.Version then
          upGo index rest st
        else
          match up st.schema with
          | Except.error e => (Except.error e, [m.Version])
          | Except.ok schema2 =>
            match insertMigration st.ledger m.Version m.Description with
            | Except.error e => (Except.error e, [m.Version])
            | Except.ok ledger2 =>
              let r := upGo index rest { ledger := ledger2, schema := schema2 }
              (r.1, m.Version :: r.2)
      | _, _ => (Except.error errInvalidUpDown, [])

/-- MigrateUpRun embeds one call of `MigrateUp`: ensure the ledger table
(no-op on the model), read the applied index, run the loop over
`Sorted()`.  The result is the transaction outcome paired with the
invocation trace of forward operations. -/
def MigrateUpRun {σ : Type} (ms : Migrations σ) (st : DBState σ) :
    Except String (DBState σ) × List Nat :=
  upGo (migrationIndex st.ledger) (Sorted ms) st

/-- MigrateUp is the transaction outcome of one `MigrateUp` call: `ok`
with the committed state, or `error` (in which case the deferred rollback
leaves the database at the state it had before the call). -/
def MigrateUp {σ : Type} (ms : Migrations σ) (st : DBState σ) :
    Except String (DBState σ) :=
  (MigrateUpRun ms st).1

/-- upTrace is the list of versions whose forward Go function was invoked
during one `MigrateUp` call, in invocation order. -/
def upTrace {σ : Type} (ms : Migrations σ) (st : DBState σ) : List Nat :=
  (MigrateUpRun ms st).2

/-- upApply is the database state observable after a `MigrateUp` call
returns: the committed state on success, the initial state otherwise
(`defer tx.Rollback`). -/
def upApply {σ : Type} (ms : Migrations σ) (st : DBState σ) : DBState σ :=
  match MigrateUp ms st with
  | Except.ok st2 => st2
  | Except.error _ => st

/-- DownResult is the outcome of a `MigrateDown` call: a committed state,
an error return, or a Go runtime panic (out-of-range slice index). -/
inductive DownResult (σ : Type) where
  | ok : DBState σ → DownResult σ
  | error : String → DownResult σ
  | panic : DownResult σ
deriving DecidableEq

/-- uintPred models Go `uint` subtraction `v - 1`: wraps modulo `2 ^ 64`
(so `0 - 1` is `2 ^ 64 - 1`). -/
def uintPred (v : Nat) : Nat :=
  (v + (2 ^ 64 - 1)) % 2 ^ 64

/-- downSelect embeds the lookup `db.migrations.Sorted()[index[i]-1]`:
the element of the sorted list at unsigned position `index[i] - 1`;
`none` means the position is outside the slice bounds, which in Go is a
runtime panic. -/
def downSelect {σ : Type} (sorted : List (Migration σ)) (v : Nat) :
    Option (Migration σ) :=
  sorted[uintPred v]?

/-- downGo is the loop body of `MigrateDown`: it visits the applied-index
values `index[len-1], ..., index[len-amount]` in that order (passed here
as the explicit list of visited values), threading the tentative
in-transaction state.  The second component of the result is the list of
versions whose `Down` function was invoked. -/
def downGo {σ : Type} (sorted : List (Migration σ)) (index : List Nat) :
    List Nat → DBState σ → DownResult σ × List Nat
  | [], st => (DownResult.ok st, [])
  | v :: rest, st =>
    match downSelect sorted v with
    | none => (DownResult.panic, [])
    | some m =>
      if m.Version = 0 ∨ m.Description = "" then
        (DownResult.error errInvalidVersionDesc, [])
      else
        match m.Up, m.Down with
        | some _, some down =>
          if index.contains m.Version then
            match down st.schema with
            | Except.error e => (DownResult.error e, [m.Version])
            | Except.ok schema2 =>
              let r := downGo sorted index rest
                { ledger := deleteMigration st.ledger m.Version, schema := schema2 }
              (r.1, m.Version :: r.2)
          else
            (DownResult.error (errNotExists m), [])
        | _, _ => (DownResult.error errInvalidUpDown, [])

/-- clampAmount is the number of loop iterations performed by
`MigrateDown` for a given index length: `amount` is clamped to the index
length when it exceeds it (`if amount > len(index)`), and the loop
`for i := len(index)-1; i >= len(index)-amount; i--` runs zero times for
a non-positive amount, hence `Int.toNat`. -/
def clampAmount (len : Nat) (amount : Int) : Nat :=
  (if (len : Int) < amount then (len : Int) else amount).toNat

/-- MigrateDownRun embeds one call of `MigrateDown(ctx, amount)`: read
the applied index, fail if it is empty, clamp `amount`, then run the
loop over the visited index values `(index.drop (len - amount)).reverse`,
i.e. `index[len-1], ..., index[len-amount]`.  The result is the
transaction outcome paired with the invocation trace of reverse
operations. -/
def MigrateDownRun {σ : Type} (ms : Migrations σ) (st : DBState σ)
    (amount : Int) : DownResult σ × List Nat :=
  let index := migrationIndex st.ledger
  if index.length = 0 then
    (DownResult.error errNoMigrations, [])
  else
    downGo (Sorted ms) index
      ((index.drop (index.length - clampAmount index.length amount)).reverse) st

/-- MigrateDown is the transaction outcome of one `MigrateDown` call. -/
def MigrateDown {σ : Type} (ms : Migrations σ) (st : DBState σ)
    (amount : Int) : DownResult σ :=
  (MigrateDownRun ms st amount).1

/-- downTrace is the list of versions whose reverse Go function was
invoked during one `MigrateDown` call, in invocation order. -/
def downTrace {σ : Type} (ms : Migrations σ) (st : DBState σ)
    (amount : Int) : List Nat :=
  (MigrateDownRun ms st amount).2

/-- downApply is the database state observable after a `MigrateDown` call:
the committed state on success; on an error return, and during the stack
unwind of a panic, the deferred rollback leaves the initial state. -/
def downApply {σ : Type} (ms : Migrations σ) (st : DBState σ)
    (amount : Int) : DBState σ :=
  match MigrateDown ms st amount with
  | DownResult.ok st2 => st2
  | DownResult.error _ => st
  | DownResult.panic => st

/-- validRec collects the structural checks the engine applies to a
record: non-zero version, non-empty description, both operations set. -/
def validRec {σ : Type} (m : Migration σ) : Prop :=
  m.Version ≠ 0 ∧ m.Description ≠ "" ∧ m.Up.isSome ∧ m.Down.isSome

/-! Concrete fixtures used by the witnesses and counterexamples.  The
schema type is `List Nat`, a log that operations may append to. -/

/-- opOk is a forward/reverse operation that always succeeds and leaves
the schema unchanged. -/
def opOk : Option (List Nat → Except String (List Nat)) :=
  some (fun s => Except.ok s)

/-- opLog is an operation that succeeds and appends `v` to the schema
log. -/
def opLog (v : Nat) : Option (List Nat → Except String (List Nat)) :=
  some (fun s => Except.ok (s ++ [v]))

/-- opFail is an operation that always fails with a simulated error. -/
def opFail : Option (List Nat → Except String (List Nat)) :=
  some (fun _ => Except.error "boom")

/-- exEmptyState is a fresh database: empty ledger, empty schema log. -/
def exEmptyState : DBState (List Nat) :=
  { ledger := [], schema := [] }

/-- demoLedger is a small ledger with versions 2, 5, 3 in row order. -/
def demoLedger : List LedgerEntry :=
  [{ version := 2, description := "a" }, { version := 5, description := "b" },
   { version := 3, description := "c" }]

/-- exSortSet is a three-record set given out of version order. -/
def exSortSet : Migrations (List Nat) :=
  [{ Version := 3, Description := "c", Up := opOk, Down := opOk },
   { Version := 1, Description := "a", Up := opOk, Down := opOk },
   { Version := 2, Description := "b", Up := opOk, Down := opOk }]

/-- exUpFailSet has a first migration that succeeds (and logs) and a
second whose forward operation fails with a simulated error. -/
def exUpFailSet : Migrations (List Nat) :=
  [{ Version := 1, Description := "one", Up := opLog 1, Down := opOk },
   { Version := 2, Description := "two", Up := opFail, Down := opOk }]

/-- C7: Sorted() on a collection of records with distinct versions
returns a copy of the collection (a permutation of it), with versions in
strictly ascending order, and is idempotent: sorting the sorted output
again returns it unchanged.  Purity and non-mutation of the source are
inherent in the value semantics of the embedding: `Sorted ms` is a new
list and `ms` itself is never altered. -/
theorem sorted_pure_ascending {σ : Type} (ms : Migrations σ)
    (hnd : (ms.map (fun m => m.Version)).Nodup) :
    (Sorted ms).Perm ms
    ∧ ((Sorted ms).map (fun m => m.Version)).Pairwise (fun a b => a < b)
    ∧ Sorted (Sorted ms) = Sorted ms := by
  have hperm : (Sorted ms).Perm ms := List.perm_insertionSort leByVersion ms
  have hsorted : (Sorted ms).Pairwise leByVersion :=
    List.sorted_insertionSort leByVersion ms
  have hnd2 : ((Sorted ms).map (fun m => m.Version)).Nodup :=
    (List.Perm.nodup_iff (hperm.map (fun m => m.Version))).mpr hnd
  refine ⟨hperm, ?hA, List.Sorted.insertionSort_eq (List.sorted_insertionSort leByVersion ms)⟩
  rw [List.pairwise_map]
  have hnd3 : (Sorted ms).Pairwise (fun a b => a.Version ≠ b.Version) :=
    List.pairwise_map.mp
      (hnd2 : ((Sorted ms).map (fun m => m.Version)).Pairwise (fun a b => a ≠ b))
  have hcomb := List.Pairwise.and hsorted hnd3
  apply hcomb.imp
  intro a b hab
  rcases hab with ⟨h1, h2⟩
  have h3 : a.Version ≤ b.Version := h1
  omega

/-- sorted_pure_ascending_witness checks C7 on a concrete permutation. -/
theorem sorted_pure_ascending_witness :
    Sorted (Sorted exSortSet) = Sorted exSortSet := by
  exact (sorted_pure_ascending exSortSet (by decide)).2.2

/-- C8: CurrentVersion returns the highest version present in the applied
index — every ledger entry's version is bounded by it and it is attained
by some entry — and returns zero on an empty ledger. -/
theorem currentVersion_highest (ledger : List LedgerEntry) :
    (ledger = [] → CurrentVersion ledger = 0)
    ∧ (∀ e ∈ ledger, e.version ≤ CurrentVersion ledger)
    ∧ (ledger ≠ [] → ∃ e ∈ ledger, CurrentVersion ledger = e.version) := by
  have hperm : (List.insertionSort (fun a b => b ≤ a)
        (ledger.map (fun e => e.version))).Perm (ledger.map (fun e => e.version)) :=
    List.perm_insertionSort _ _
  haveI : IsTotal Nat (fun a b => b ≤ a) := ⟨fun a b => Nat.le_total b a⟩
  haveI : IsTrans Nat (fun a b => b ≤ a) := ⟨fun _ _ _ hab hbc => Nat.le_trans hbc hab⟩
  have hsorted : (List.insertionSort (fun a b => b ≤ a)
        (ledger.map (fun e => e.version))).Pairwise (fun a b => b ≤ a) :=
    List.sorted_insertionSort _ _
  cases hs : List.insertionSort (fun a b => b ≤ a) (ledger.map (fun e => e.version)) with
  | nil =>
    rw [hs] at hperm
    have hmap : ledger.map (fun e => e.version) = [] := List.Perm.eq_nil hperm.symm
    have hled : ledger = [] := by
      cases ledger with
      | nil => rfl
      | cons a t => simp at hmap
    refine ⟨?hA, ?hB, ?hC⟩
    · intro _
      simp only [CurrentVersion, hs]
    · intro e he
      rw [hled] at he
      cases he
    · intro hne
      exact absurd hled hne
  | cons v t =>
    have hcv : CurrentVersion ledger = v := by
      simp only [CurrentVersion, hs]
    rw [hs] at hperm hsorted
    have hhead := (List.pairwise_cons.mp hsorted).1
    refine ⟨?hA2, ?hB2, ?hC2⟩
    · intro hled
      rw [hled] at hperm
      simp at hperm
    · intro e he
      have hmem : e.version ∈ v :: t := by
        refine hperm.symm.subset ?hm
        exact List.mem_map.mpr ⟨e, he, rfl⟩
      rw [hcv]
      rcases List.mem_cons.mp hmem with h | h
      · omega
      · exact hhead _ h
    · intro _
      have hv : v ∈ ledger.map (fun e => e.version) :=
        hperm.subset (List.mem_cons_self v t)
      rcases List.mem_map.mp hv with ⟨e, he, heq⟩
      exact ⟨e, he, by rw [hcv, heq]⟩

/-- currentVersion_highest_witness checks C8 on the empty ledger and on a
concrete three-row ledger whose highest version is 5. -/
theorem currentVersion_highest_witness :
    CurrentVersion ([] : List LedgerEntry) = 0
    ∧ ({ version := 5, description := "b" } : LedgerEntry).version ≤ CurrentVersion demoLedger
    ∧ CurrentVersion demoLedger = 5 :=
  ⟨(currentVersion_highest []).1 rfl,
   (currentVersion_highest demoLedger).2.1 { version := 5, description := "b" } (by decide),
   rfl⟩

/-- C6: MigrateDown called on an empty applied index fails with the
precondition error `no migrations to rollback`, invokes no reverse
operation (empty invocation trace) and leaves the database unchanged. -/
theorem migrateDown_empty_index {σ : Type} (ms : Migrations σ) (st : DBState σ)
    (k : Int) (h : st.ledger = []) :
    MigrateDownRun ms st k = (DownResult.error errNoMigrations, [])
    ∧ downApply ms st k = st := by
  have h1 : MigrateDownRun ms st k = (DownResult.error errNoMigrations, []) := by
    unfold MigrateDownRun
    rw [h]
    rfl
  refine ⟨h1, ?hA⟩
  unfold downApply MigrateDown
  rw [h1]

/-- migrateDown_empty_index_witness checks C6 on a fresh database. -/
theorem migrateDown_empty_index_witness :
    MigrateDownRun exUpFailSet exEmptyState 1 = (DownResult.error errNoMigrations, [])
    ∧ downApply exUpFailSet exEmptyState 1 = exEmptyState :=
  migrateDown_empty_index exUpFailSet exEmptyState 1 rfl

/-- C10: MigrateDown with a non-positive amount on a non-empty applied
index commits at once: it returns success, invokes no reverse operation
and deletes no ledger entry (the clamp only bounds the amount from above
and the loop body never runs). -/
theorem migrateDown_nonpositive {σ : Type} (ms : Migrations σ) (st : DBState σ)
    (k : Int) (hne : st.ledger ≠ []) (hk : k ≤ 0) :
    MigrateDownRun ms st k = (DownResult.ok st, []) := by
  have hlen : (migrationIndex st.ledger).length = st.ledger.length := by
    unfold migrationIndex
    rw [List.length_insertionSort, List.length_map]
  have h0 : ¬ (migrationIndex st.ledger).length = 0 := by
    rw [hlen]
    simpa [List.length_eq_zero] using hne
  have hct : clampAmount (migrationIndex st.ledger).length k = 0 := by
    unfold clampAmount
    have hl0 : 0 < (migrationIndex st.ledger).length := Nat.pos_of_ne_zero h0
    rw [if_neg (by omega : ¬ ((migrationIndex st.ledger).length : Int) < k)]
    omega
  unfold MigrateDownRun
  rw [if_neg h0, hct, Nat.sub_zero, List.drop_length, List.reverse_nil]
  rfl

/-- migrateDown_nonpositive_witness checks C10 at amount 0 and at a
negative amount on a one-row ledger. -/
theorem migrateDown_nonpositive_witness :
    MigrateDownRun exUpFailSet
      { ledger := [{ version := 1, description := "one" }], schema := [] } 0
      = (DownResult.ok { ledger := [{ version := 1, description := "one" }], schema := [] }, [])
    ∧ MigrateDownRun exUpFailSet
      { ledger := [{ version := 1, description := "one" }], schema := [] } (-3)
      = (DownResult.ok { ledger := [{ version := 1, description := "one" }], schema := [] }, []) :=
  ⟨migrateDown_nonpositive exUpFailSet _ 0 (by decide) (by omega),
   migrateDown_nonpositive exUpFailSet _ (-3) (by decide) (by omega)⟩

/-- C1: when any step of a MigrateUp run fails, the whole run is rolled
back by the single enclosing transaction: the observable database state
equals the state before the call, so the ledger holds no entry for the
failed migration and every entry inserted earlier in the same run is gone
as well. -/
theorem migrateUp_rollback {σ : Type} (ms : Migrations σ) (st : DBState σ)
    (e : String) (h : MigrateUp ms st = Except.error e) :
    upApply ms st = st
    ∧ ∀ v d, ({ version := v, description := d } : LedgerEntry) ∉ st.ledger →
        ({ version := v, description := d } : LedgerEntry) ∉ (upApply ms st).ledger := by
  have happ : upApply ms st = st := by
    unfold upApply
    rw [h]
  exact ⟨happ, fun v d hv => by rw [happ]; exact hv⟩

/-- migrateUp_rollback_witness runs C1's spec scenario: migration 1
succeeds inside the transaction (its forward operation and the one of the
failing migration 2 are both invoked, trace `[1, 2]`), migration 2 fails,
and after the rollback the ledger holds no entry at all — in particular
none for version 1 inserted earlier in the same run. -/
theorem migrateUp_rollback_witness :
    MigrateUp exUpFailSet exEmptyState = Except.error "boom"
    ∧ upTrace exUpFailSet exEmptyState = [1, 2]
    ∧ upApply exUpFailSet exEmptyState = exEmptyState
    ∧ ({ version := 1, description := "one" } : LedgerEntry)
        ∉ (upApply exUpFailSet exEmptyState).ledger :=
  ⟨rfl, rfl,
   (migrateUp_rollback exUpFailSet exEmptyState "boom" rfl).1,
   (migrateUp_rollback exUpFailSet exEmptyState "boom" rfl).2 1 "one" (by decide)⟩

/-- upGo_skip: a valid record whose version is already in the applied
index is skipped: the loop neither runs its forward operation nor writes
a ledger entry, and continues with the rest of the list unchanged. -/
theorem upGo_skip {σ : Type} (index : List Nat) (m : Migration σ)
    (rest : List (Migration σ)) (st : DBState σ)
    (hval : validRec m) (hmem : index.contains m.Version = true) :
    upGo index (m :: rest) st = upGo index rest st := by
  rcases hval with ⟨h0, hd, hu, hdn⟩
  rcases hU : m.Up with _ | up
  · rw [hU] at hu
    simp at hu
  rcases hD : m.Down with _ | down
  · rw [hD] at hdn
    simp at hdn
  have hm : m.Version ∈ index := List.elem_iff.mp hmem
  simp [upGo, hU, hD, h0, hd, hm]

/-- upGo_all_skip: when every record of the list is valid and already
applied, the loop is a no-op that commits the incoming state and invokes
no forward operation. -/
theorem upGo_all_skip {σ : Type} (index : List Nat) :
    ∀ (l : List (Migration σ)) (st : DBState σ),
      (∀ m ∈ l, validRec m ∧ index.contains m.Version = true) →
      upGo index l st = (Except.ok st, []) := by
  intro l
  induction l with
  | nil =>
    intro st _
    rfl
  | cons m rest ih =>
    intro st hall
    rcases hall m (List.mem_cons_self m rest) with ⟨hval, hmem⟩
    rw [upGo_skip index m rest st hval hmem]
    exact ih st (fun m2 hm2 => hall m2 (List.mem_cons_of_mem m hm2))

/-- upGo_ok_inv: invariants of a successful loop run — every incoming
ledger row survives into the final ledger, and every record of the list
is valid and ends up either skipped (its version was in the index) or
recorded in the final ledger. -/
theorem upGo_ok_inv {σ : Type} (index : List Nat) :
    ∀ (l : List (Migration σ)) (st st1 : DBState σ),
      (upGo index l st).1 = Except.ok st1 →
      (∀ e ∈ st.ledger, e ∈ st1.ledger)
      ∧ ∀ m ∈ l, validRec m ∧
          (index.contains m.Version = true
            ∨ m.Version ∈ st1.ledger.map (fun e => e.version)) := by
  intro l
  induction l with
  | nil =>
    intro st st1 h
    simp only [upGo] at h
    cases h
    exact ⟨fun e he => he, by simp⟩
  | cons m rest ih =>
    intro st st1 h
    simp only [upGo] at h
    split at h
    · cases h
    · rename_i hvd
      push_neg at hvd
      split at h
      · rename_i up down0 hU hD
        split at h
        · rename_i hc
          rcases ih st st1 h with ⟨hmono, hproc⟩
          refine ⟨hmono, ?hrest1⟩
          intro m2 hm2
          rcases List.mem_cons.mp hm2 with hm2 | hm2
          · subst hm2
            exact ⟨⟨hvd.1, hvd.2, by rw [hU]; rfl, by rw [hD]; rfl⟩, Or.inl hc⟩
          · exact hproc m2 hm2
        · rename_i hc
          split at h
          · cases h
          · rename_i schema2 hup
            split at h
            · cases h
            · rename_i ledger2 hins
              have hins2 : ledger2 = st.ledger ++
                  [{ version := m.Version, description := m.Description }] := by
                unfold insertMigration at hins
                split at hins
                · cases hins
                · cases hins
                  rfl
              rcases ih { ledger := ledger2, schema := schema2 } st1 h with ⟨hmono, hproc⟩
              have hself : ({ version := m.Version, description := m.Description } :
                  LedgerEntry) ∈ st1.ledger := by
                apply hmono
                rw [hins2]
                exact List.mem_append_right _ (List.mem_singleton.mpr rfl)
              refine ⟨?hmono2, ?hrest2⟩
              · intro e he
                apply hmono
                rw [hins2]
                exact List.mem_append_left _ he
              · intro m2 hm2
                rcases List.mem_cons.mp hm2 with hm2 | hm2
                · subst hm2
                  refine ⟨⟨hvd.1, hvd.2, by rw [hU]; rfl, by rw [hD]; rfl⟩, Or.inr ?hv2⟩
                  exact List.mem_map.mpr
                    ⟨{ version := m2.Version, description := m2.Description }, hself, rfl⟩
                · exact hproc m2 hm2
      · cases h

/-- C4: a migration whose version is already in the applied index read at
the start of the run is skipped — no forward operation, no ledger write,
the loop moves on — and consequently a second MigrateUp right after a
successful one succeeds while changing nothing: every record is valid and
already recorded, so all are skipped. -/
theorem migrateUp_idempotent {σ : Type} (ms : Migrations σ) (st st1 : DBState σ)
    (h : MigrateUp ms st = Except.ok st1) :
    MigrateUp ms st1 = Except.ok st1
    ∧ ∀ (index : List Nat) (m : Migration σ) (rest : List (Migration σ)) (st2 : DBState σ),
        validRec m → index.contains m.Version = true →
        upGo index (m :: rest) st2 = upGo index rest st2 := by
  refine ⟨?hA, fun index m rest st2 hval hmem => upGo_skip index m rest st2 hval hmem⟩
  have h0 : (upGo (migrationIndex st.ledger) (Sorted ms) st).1 = Except.ok st1 := h
  rcases upGo_ok_inv (migrationIndex st.ledger) (Sorted ms) st st1 h0 with ⟨hmono, hproc⟩
  have hall : ∀ m ∈ Sorted ms, validRec m ∧
      (migrationIndex st1.ledger).contains m.Version = true := by
    intro m hm
    rcases hproc m hm with ⟨hval, hcase⟩
    refine ⟨hval, ?hc⟩
    have hmem2 : m.Version ∈ st1.ledger.map (fun e => e.version) := by
      rcases hcase with hidx | hmem2
      · have hmem0 : m.Version ∈ migrationIndex st.ledger := List.elem_iff.mp hidx
        have hmem1 : m.Version ∈ st.ledger.map (fun e => e.version) := by
          unfold migrationIndex at hmem0
          exact (List.mem_insertionSort _).mp hmem0
        rcases List.mem_map.mp hmem1 with ⟨e, he, heq⟩
        exact List.mem_map.mpr ⟨e, hmono e he, heq⟩
      · exact hmem2
    apply List.elem_iff.mpr
    unfold migrationIndex
    exact (List.mem_insertionSort _).mpr hmem2
  show (upGo (migrationIndex st1.ledger) (Sorted ms) st1).1 = Except.ok st1
  rw [upGo_all_skip (migrationIndex st1.ledger) (Sorted ms) st1 hall]

/-- exGoodSet is a two-record valid set whose forward operations log the
applied version. -/
def exGoodSet : Migrations (List Nat) :=
  [{ Version := 1, Description := "one", Up := opLog 1, Down := opOk },
   { Version := 2, Description := "two", Up := opLog 2, Down := opOk }]

/-- exGoodApplied is the state after a successful MigrateUp of exGoodSet
on a fresh database. -/
def exGoodApplied : DBState (List Nat) :=
  { ledger := [{ version := 1, description := "one" },
               { version := 2, description := "two" }],
    schema := [1, 2] }

/-- migrateUp_idempotent_witness: a concrete successful run followed by a
second run that succeeds and changes nothing. -/
theorem migrateUp_idempotent_witness :
    MigrateUp exGoodSet exEmptyState = Except.ok exGoodApplied
    ∧ MigrateUp exGoodSet exGoodApplied = Except.ok exGoodApplied :=
  ⟨rfl, (migrateUp_idempotent exGoodSet exEmptyState exGoodApplied rfl).1⟩

/-- c3good is a valid version-1 record whose forward operation logs. -/
def c3good : Migration (List Nat) :=
  { Version := 1, Description := "one", Up := opLog 1, Down := opOk }

/-- c3bad is a record with an empty description (structurally invalid). -/
def c3bad : Migration (List Nat) :=
  { Version := 2, Description := "", Up := opLog 2, Down := opOk }

/-- c3set places the invalid record last in sorted order. -/
def c3set : Migrations (List Nat) :=
  [c3good, c3bad]

/-- c3zero is a record with version 0 (structurally invalid). -/
def c3zero : Migration (List Nat) :=
  { Version := 0, Description := "zero", Up := opLog 0, Down := opOk }

/-- c3two is a valid version-2 record. -/
def c3two : Migration (List Nat) :=
  { Version := 2, Description := "two", Up := opLog 2, Down := opOk }

/-- c3firstSet places the invalid record first in sorted order. -/
def c3firstSet : Migrations (List Nat) :=
  [c3zero, c3two]

/-- migrateUp_invalid_invokes_earlier_up refutes C3 as stated: with an
invalid record last in sorted order, the run does fail with the
validation error, but the forward operation of the earlier valid record
is invoked (invocation trace `[1]`, not `[]`) before the invalid record
is reached — its effects are only undone afterwards by the rollback. -/
theorem migrateUp_invalid_invokes_earlier_up :
    (∃ m ∈ c3set, m.Version = 0 ∨ m.Description = "")
    ∧ upTrace c3set exEmptyState = [1]
    ∧ MigrateUp c3set exEmptyState = Except.error errInvalidVersionDesc :=
  ⟨⟨c3bad, by simp [c3set], Or.inr rfl⟩, rfl, rfl⟩

/-- upGo_invalid: a loop over a list that contains a structurally invalid
record (version 0 or empty description) can never return success. -/
theorem upGo_invalid {σ : Type} (index : List Nat) :
    ∀ (l : List (Migration σ)) (st : DBState σ),
      (∃ m ∈ l, m.Version = 0 ∨ m.Description = "") →
      ∀ st2, (upGo index l st).1 ≠ Except.ok st2 := by
  intro l
  induction l with
  | nil =>
    intro st hinv st2 h
    rcases hinv with ⟨m, hm, _⟩
    cases hm
  | cons m rest ih =>
    intro st hinv st2 h
    simp only [upGo] at h
    split at h
    · cases h
    · rename_i hvd
      rcases hinv with ⟨m2, hm2, hbad⟩
      rcases List.mem_cons.mp hm2 with heq | hm2r
      · subst heq
        exact hvd hbad
      · split at h
        · rename_i up down0 hU hD
          split at h
          · exact ih st ⟨m2, hm2r, hbad⟩ st2 h
          · split at h
            · cases h
            · split at h
              · cases h
              · exact ih _ ⟨m2, hm2r, hbad⟩ st2 h
        · cases h

/-- C3 (amended): a migration set containing a record with version 0 or
an empty description can never make MigrateUp succeed, and the rollback
leaves the database unchanged; when the invalid record comes first in
sorted order the run fails with the validation error before invoking any
forward operation — but forward operations of valid records that precede
the invalid one in sorted order are invoked (their effects persist only
inside the transaction and are rolled back), contrary to the claim's
parenthetical. -/
theorem migrateUp_invalid_fails {σ : Type} (ms : Migrations σ) (st : DBState σ)
    (hinv : ∃ m ∈ ms, m.Version = 0 ∨ m.Description = "") :
    (∀ st2, MigrateUp ms st ≠ Except.ok st2)
    ∧ upApply ms st = st
    ∧ (∀ m0 t, Sorted ms = m0 :: t → (m0.Version = 0 ∨ m0.Description = "") →
        MigrateUpRun ms st = (Except.error errInvalidVersionDesc, [])) := by
  have hinv2 : ∃ m ∈ Sorted ms, m.Version = 0 ∨ m.Description = "" := by
    rcases hinv with ⟨m, hm, hbad⟩
    exact ⟨m, (List.mem_insertionSort _).mpr hm, hbad⟩
  have hne : ∀ st2, MigrateUp ms st ≠ Except.ok st2 := by
    intro st2
    exact upGo_invalid (migrationIndex st.ledger) (Sorted ms) st hinv2 st2
  refine ⟨hne, ?hA, ?hB⟩
  · cases heq : MigrateUp ms st with
    | ok st2 => exact absurd heq (hne st2)
    | error e =>
      unfold upApply
      rw [heq]
  · intro m0 t hs h0
    unfold MigrateUpRun
    rw [hs]
    simp only [upGo]
    rw [if_pos h0]

/-- migrateUp_invalid_fails_witness applies the amended C3 to both
concrete placements of the invalid record: last in sorted order (state
unchanged after the failed run) and first in sorted order (validation
error, empty invocation trace). -/
theorem migrateUp_invalid_fails_witness :
    upApply c3set exEmptyState = exEmptyState
    ∧ MigrateUpRun c3firstSet exEmptyState = (Except.error errInvalidVersionDesc, []) :=
  ⟨(migrateUp_invalid_fails c3set exEmptyState ⟨c3bad, by simp [c3set], Or.inr rfl⟩).2.1,
   (migrateUp_invalid_fails c3firstSet exEmptyState
      ⟨c3zero, by simp [c3firstSet], Or.inl rfl⟩).2.2 c3zero [c3two] rfl (Or.inl rfl)⟩

/-- natDesc is the description given to the canonical record of version
`v`; distinct versions get distinct descriptions, as the ledger table's
unique constraint expects. -/
def natDesc (v : Nat) : String :=
  "m" ++ Nat.repr v

/-- natDesc_ne_empty: canonical descriptions are never empty. -/
theorem natDesc_ne_empty (v : Nat) : natDesc v ≠ "" := by
  intro h
  have hlen := congrArg String.length h
  have h1 : ("m" : String).length = 1 := rfl
  have h0 : ("" : String).length = 0 := rfl
  rw [natDesc, String.length_append, h1, h0] at hlen
  omega

/-- denseMig is the canonical valid record of version `v`: its reverse
operation logs `v` to the schema, which lets the theorems observe which
records a Down run reverts and in which order. -/
def denseMig (v : Nat) : Migration (List Nat) :=
  { Version := v, Description := natDesc v, Up := opOk, Down := opLog v }

/-- denseSet is the migration set with versions exactly 1..N. -/
def denseSet (N : Nat) : Migrations (List Nat) :=
  (List.range' 1 N).map denseMig

/-- denseLedger is the ledger after versions 1..N have been applied. -/
def denseLedger (N : Nat) : List LedgerEntry :=
  (List.range' 1 N).map (fun v => { version := v, description := natDesc v })

/-- denseState is the database state with versions 1..N applied and an
empty schema log. -/
def denseState (N : Nat) : DBState (List Nat) :=
  { ledger := denseLedger N, schema := [] }

/-- uintPred_pos: for a version in Go uint range, the wrapped decrement
is the ordinary one. -/
theorem uintPred_pos (v : Nat) (h1 : 1 ≤ v) (h2 : v ≤ 2 ^ 64) :
    uintPred v = v - 1 := by
  unfold uintPred
  have h64 : (2 : Nat) ^ 64 = 18446744073709551616 := by norm_num
  rw [h64]
  rw [h64] at h2
  omega

/-- sorted_denseSet: the dense set is already in ascending version
order. -/
theorem sorted_denseSet (N : Nat) : Sorted (denseSet N) = denseSet N := by
  apply List.Sorted.insertionSort_eq
  show (denseSet N).Pairwise leByVersion
  unfold denseSet
  rw [List.pairwise_map]
  exact (List.pairwise_lt_range' 1 N).imp (fun hab => Nat.le_of_lt hab)

/-- migrationIndex_denseLedger: the applied index of the dense ledger is
exactly 1..N. -/
theorem migrationIndex_denseLedger (N : Nat) :
    migrationIndex (denseLedger N) = List.range' 1 N := by
  unfold migrationIndex denseLedger
  rw [List.map_map]
  have hmap : (List.range' 1 N).map
      ((fun e => e.version) ∘ (fun v => ({ version := v, description := natDesc v } : LedgerEntry)))
      = List.range' 1 N := by
    simp only [Function.comp_def]
    exact List.map_id' _
  rw [hmap]
  apply List.Sorted.insertionSort_eq
  show (List.range' 1 N).Pairwise (fun a b => a ≤ b)
  exact (List.pairwise_lt_range' 1 N).imp (fun hab => Nat.le_of_lt hab)

/-- downSelect_denseSet: on the dense set the positional lookup at a
1-based in-range version lands on the record of that same version. -/
theorem downSelect_denseSet (N v : Nat) (h1 : 1 ≤ v) (h2 : v ≤ N)
    (h64 : N ≤ 2 ^ 64) :
    downSelect (denseSet N) v = some (denseMig v) := by
  unfold downSelect denseSet
  rw [uintPred_pos v h1 (Nat.le_trans h2 h64)]
  rw [List.getElem?_map]
  rw [List.getElem?_range' 1 1 (by omega : v - 1 < N)]
  have harg : 1 + 1 * (v - 1) = v := by omega
  rw [Option.map_some', harg]

/-- deleteMigration_denseLedger: deleting the top version of a dense
ledger leaves the dense ledger one shorter. -/
theorem deleteMigration_denseLedger (m : Nat) :
    deleteMigration (denseLedger (m + 1)) (m + 1) = denseLedger m := by
  unfold deleteMigration denseLedger
  rw [List.range'_1_concat, List.map_append, List.filter_append]
  have h1m : 1 + m = m + 1 := Nat.add_comm 1 m
  have h1 : List.filter (fun e => !(e.version == m + 1))
      (List.map (fun v => ({ version := v, description := natDesc v } : LedgerEntry)) [1 + m])
      = [] := by
    rw [h1m]
    simp [List.filter]
  have h2 : List.filter (fun e => !(e.version == m + 1))
      (List.map (fun v => ({ version := v, description := natDesc v } : LedgerEntry))
        (List.range' 1 m))
      = List.map (fun v => ({ version := v, description := natDesc v } : LedgerEntry))
          (List.range' 1 m) := by
    apply List.filter_eq_self.mpr
    intro a ha
    rcases List.mem_map.mp ha with ⟨v, hv, hveq⟩
    have hlt : v < 1 + m := (List.mem_range'_1.mp hv).2
    have hne : v ≠ m + 1 := by omega
    rw [← hveq]
    simp [hne]
  rw [h1, h2, List.append_nil]

/-- downGo_step: one iteration of the Down loop on a valid, applied,
in-range record: the reverse operation runs, the ledger row of that
version is deleted, and the loop continues on the updated tentative
state, recording the invocation. -/
theorem downGo_step {σ : Type} (sorted : List (Migration σ)) (index : List Nat)
    (v : Nat) (rest : List Nat) (st : DBState σ) (m : Migration σ)
    (up down : σ → Except String σ) (schema2 : σ)
    (hsel : downSelect sorted v = some m)
    (h0 : m.Version ≠ 0) (hd : m.Description ≠ "")
    (hU : m.Up = some up) (hD : m.Down = some down)
    (hc : m.Version ∈ index)
    (hdown : down st.schema = Except.ok schema2) :
    downGo sorted index (v :: rest) st
      = ((downGo sorted index rest
            { ledger := deleteMigration st.ledger m.Version, schema := schema2 }).1,
         m.Version :: (downGo sorted index rest
            { ledger := deleteMigration st.ledger m.Version, schema := schema2 }).2) := by
  have hnotor : ¬ (m.Version = 0 ∨ m.Description = "") := not_or.mpr ⟨h0, hd⟩
  have hcb : index.contains m.Version = true := List.elem_iff.mpr hc
  simp only [downGo, hsel, hU, hD, hnotor, hcb, hdown, if_false, if_true, ite_true,
    ite_false, if_neg, not_false_eq_true]

/-- clampAmount_nonneg: for a non-negative requested amount the loop
iteration count is `min amount len`. -/
theorem clampAmount_nonneg (len : Nat) (k : Int) (hk : 0 ≤ k) :
    clampAmount len k = min k.toNat len := by
  unfold clampAmount
  rw [Nat.min_def]
  split
  · rename_i h
    split <;> omega
  · rename_i h
    split <;> omega

/-- downGo_dense: the Down loop over the contiguous top segment
`a, ..., a+r-1` of a dense ledger reverts exactly those versions, most
recent first, deleting exactly their rows. -/
theorem downGo_dense (N a : Nat) (ha : 1 ≤ a) (h64 : N ≤ 2 ^ 64) :
    ∀ (r : Nat) (sch : List Nat), a + r ≤ N + 1 →
      downGo (denseSet N) (List.range' 1 N) ((List.range' a r).reverse)
          { ledger := denseLedger (a + r - 1), schema := sch }
        = (DownResult.ok
            { ledger := denseLedger (a - 1), schema := sch ++ (List.range' a r).reverse },
           (List.range' a r).reverse) := by
  intro r
  induction r with
  | zero =>
    intro sch hr
    simp [downGo]
  | succ r ih =>
    intro sch hr
    have hrw : (List.range' a (r + 1)).reverse = (a + r) :: (List.range' a r).reverse := by
      rw [List.range'_1_concat, List.reverse_append]
      rfl
    rw [hrw]
    have hv1 : 1 ≤ a + r := by omega
    have hv2 : a + r ≤ N := by omega
    have hstep := downGo_step (denseSet N) (List.range' 1 N) (a + r)
      ((List.range' a r).reverse)
      { ledger := denseLedger (a + (r + 1) - 1), schema := sch }
      (denseMig (a + r)) (fun s => Except.ok s) (fun s => Except.ok (s ++ [a + r]))
      (sch ++ [a + r])
      (downSelect_denseSet N (a + r) hv1 hv2 h64)
      (by show a + r ≠ 0; omega)
      (natDesc_ne_empty (a + r))
      rfl rfl
      (show (a + r) ∈ List.range' 1 N from List.mem_range'_1.mpr ⟨hv1, by omega⟩)
      rfl
    rw [hstep]
    have hdel : deleteMigration (denseLedger (a + (r + 1) - 1)) ((denseMig (a + r)).Version)
        = denseLedger (a + r - 1) := by
      obtain ⟨b, hb⟩ : ∃ b, a + r = b + 1 := ⟨a + r - 1, by omega⟩
      show deleteMigration (denseLedger (a + (r + 1) - 1)) (a + r) = denseLedger (a + r - 1)
      rw [show a + (r + 1) - 1 = b + 1 from by omega, show a + r - 1 = b from by omega, hb]
      exact deleteMigration_denseLedger b
    rw [hdel]
    rw [ih (sch ++ [a + r]) (by omega)]
    have hsch : sch ++ [a + r] ++ (List.range' a r).reverse
        = sch ++ (a + r) :: (List.range' a r).reverse := by
      simp [List.append_assoc]
    show (DownResult.ok
        { ledger := denseLedger (a - 1),
          schema := sch ++ [a + r] ++ (List.range' a r).reverse },
      (a + r) :: (List.range' a r).reverse)
      = (DownResult.ok
        { ledger := denseLedger (a - 1),
          schema := sch ++ (a + r) :: (List.range' a r).reverse },
      (a + r) :: (List.range' a r).reverse)
    rw [hsch]

/-- downSelect_dense_of_map: on any migration set whose sorted versions
are exactly 1..N, the positional lookup at a 1-based in-range value `v`
lands on a record of the set whose Version is that same `v`. -/
theorem downSelect_dense_of_map {σ : Type} (ms : Migrations σ) (N v : Nat)
    (hmap : (Sorted ms).map (fun m => m.Version) = List.range' 1 N)
    (h1 : 1 ≤ v) (h2 : v ≤ N) (h64 : N ≤ 2 ^ 64) :
    ∃ m, downSelect (Sorted ms) v = some m ∧ m.Version = v ∧ m ∈ ms := by
  have hlen : (Sorted ms).length = N := by
    have hl := congrArg List.length hmap
    rw [List.length_map, List.length_range'] at hl
    exact hl
  have hlt : v - 1 < (Sorted ms).length := by omega
  have hup : uintPred v = v - 1 := uintPred_pos v h1 (Nat.le_trans h2 h64)
  obtain ⟨m, hsel0⟩ : ∃ m, (Sorted ms)[v - 1]? = some m :=
    ⟨_, List.getElem?_eq_getElem hlt⟩
  refine ⟨m, ?hsel, ?hver, ?hmem⟩
  · unfold downSelect
    rw [hup]
    exact hsel0
  · have hmap2 : ((Sorted ms).map (fun m => m.Version))[v - 1]?
        = (List.range' 1 N)[v - 1]? := by
      rw [hmap]
    rw [List.getElem?_map, hsel0, Option.map_some'] at hmap2
    rw [List.getElem?_range' 1 1 (by omega : v - 1 < N)] at hmap2
    have hv := Option.some.inj hmap2
    omega
  · have hmS : m ∈ Sorted ms := List.getElem?_mem hsel0
    exact (List.mem_insertionSort _).mp hmS

/-- downGo_dense_gen: on any migration set whose sorted versions are
exactly 1..N, with valid records and reverse operations that always
succeed, the Down loop over the contiguous segment `a, ..., a+r-1`
(visited descending) commits, reverts exactly those versions most recent
first, and deletes from the tentative ledger exactly the rows whose
version lies in that segment. -/
theorem downGo_dense_gen {σ : Type} (ms : Migrations σ) (N : Nat)
    (hmap : (Sorted ms).map (fun m => m.Version) = List.range' 1 N)
    (h64 : N ≤ 2 ^ 64)
    (hval : ∀ m ∈ ms, m.Description ≠ "" ∧ m.Up.isSome ∧ m.Down.isSome)
    (hdok : ∀ m ∈ ms, ∀ down, m.Down = some down →
        ∀ s, ∃ s2, down s = Except.ok s2) :
    ∀ (r a : Nat), 1 ≤ a → a + r ≤ N + 1 →
      ∀ (ledg : List LedgerEntry) (sch : σ),
      ∃ st2, downGo (Sorted ms) (List.range' 1 N) ((List.range' a r).reverse)
          { ledger := ledg, schema := sch }
          = (DownResult.ok st2, (List.range' a r).reverse)
        ∧ st2.ledger = ledg.filter
            (fun e => decide (e.version < a) || decide (a + r ≤ e.version)) := by
  intro r
  induction r with
  | zero =>
    intro a ha hr ledg sch
    refine ⟨{ ledger := ledg, schema := sch }, by simp [downGo], ?hl0⟩
    symm
    apply List.filter_eq_self.mpr
    intro e _
    simp only [Bool.or_eq_true, decide_eq_true_eq]
    omega
  | succ r ih =>
    intro a ha hr ledg sch
    have hrw : (List.range' a (r + 1)).reverse = (a + r) :: (List.range' a r).reverse := by
      rw [List.range'_1_concat, List.reverse_append]
      rfl
    obtain ⟨m, hsel, hver, hmem⟩ :=
      downSelect_dense_of_map ms N (a + r) hmap (by omega) (by omega) h64
    obtain ⟨hd, hu, hdn⟩ := hval m hmem
    rcases hU : m.Up with _ | up
    · rw [hU] at hu
      simp at hu
    rcases hD : m.Down with _ | down
    · rw [hD] at hdn
      simp at hdn
    obtain ⟨schema2, hdown⟩ := hdok m hmem down hD sch
    have h0 : m.Version ≠ 0 := by
      rw [hver]
      omega
    have hc : m.Version ∈ List.range' 1 N := by
      rw [hver]
      exact List.mem_range'_1.mpr ⟨by omega, by omega⟩
    have hstep := downGo_step (Sorted ms) (List.range' 1 N) (a + r)
      ((List.range' a r).reverse) { ledger := ledg, schema := sch }
      m up down schema2 hsel h0 hd hU hD hc hdown
    obtain ⟨st2, hrec, hledg⟩ := ih a ha (by omega) (deleteMigration ledg m.Version) schema2
    refine ⟨st2, ?heq1, ?hl1⟩
    · rw [hrw, hstep, hrec, hver]
    · rw [hledg]
      unfold deleteMigration
      rw [List.filter_filter]
      refine List.filter_congr ?hp1
      intro e _
      rw [Bool.eq_iff_iff]
      simp only [Bool.and_eq_true, Bool.or_eq_true, Bool.not_eq_true', beq_eq_false_iff_ne,
        decide_eq_true_eq, hver]
      omega

/-- C5 (amended): for every migration set of structurally valid records
(non-empty descriptions, both operations set) whose sorted versions are
exactly the dense sequence 1..N, every state whose applied index is
exactly 1..N (all N applied), and reverse operations that succeed — the
regime in which the positional down-lookup is well defined and the run
can complete — MigrateDown with requested amount `k ≥ 0` clamps `k` to
`N` and reverts exactly `min k N` migrations, the most recently applied
ones, visited from the last element of the applied index backward
(invocation trace `[N, N-1, ..., N-min+1]`), deleting exactly the
ledger rows of those versions and no others. -/
theorem migrateDown_clamps_and_reverts {σ : Type} (ms : Migrations σ)
    (st : DBState σ) (N : Nat) (k : Int) (hN : 1 ≤ N) (h64 : N ≤ 2 ^ 64)
    (hk : 0 ≤ k)
    (hmap : (Sorted ms).map (fun m => m.Version) = List.range' 1 N)
    (hidx : migrationIndex st.ledger = List.range' 1 N)
    (hval : ∀ m ∈ ms, m.Description ≠ "" ∧ m.Up.isSome ∧ m.Down.isSome)
    (hdok : ∀ m ∈ ms, ∀ down, m.Down = some down →
        ∀ s, ∃ s2, down s = Except.ok s2) :
    ∃ st2, MigrateDownRun ms st k
        = (DownResult.ok st2,
           (List.range' (N - min k.toNat N + 1) (min k.toNat N)).reverse)
      ∧ st2.ledger = st.ledger.filter
          (fun e => decide (e.version < N - min k.toNat N + 1)
            || decide (N + 1 ≤ e.version)) := by
  set n := min k.toNat N with hn
  have hnN : n ≤ N := by
    rw [hn]
    exact Nat.min_le_right _ _
  have hdrop : (List.range' 1 N).drop (N - n) = List.range' (N - n + 1) n := by
    have hsplit : List.range' 1 (N - n) ++ List.range' (1 + (N - n)) n = List.range' 1 N := by
      rw [List.range'_append_1 1 (N - n) n]
      congr 1
      omega
    rw [← hsplit, List.drop_left' (List.length_range' 1 1 (N - n)), Nat.add_comm 1 (N - n)]
  obtain ⟨st2, hrun, hledg⟩ := downGo_dense_gen ms N hmap h64 hval hdok n (N - n + 1)
    (by omega) (by omega) st.ledger st.schema
  refine ⟨st2, ?heq, ?hl⟩
  · simp only [MigrateDownRun]
    rw [hidx]
    simp only [List.length_range']
    rw [if_neg (by omega : ¬ N = 0)]
    rw [clampAmount_nonneg N k hk, ← hn]
    rw [hdrop]
    exact hrun
  · rw [hledg]
    refine List.filter_congr ?hp
    intro e _
    rw [Bool.eq_iff_iff]
    simp only [Bool.or_eq_true, decide_eq_true_eq]
    omega

/-- denseSet_down_ok: the reverse operations of the canonical dense set
always succeed (each logs its version). -/
theorem denseSet_down_ok (N : Nat) : ∀ m ∈ denseSet N, ∀ down, m.Down = some down →
    ∀ s, ∃ s2, down s = Except.ok s2 := by
  intro m hm down hD s
  unfold denseSet at hm
  rcases List.mem_map.mp hm with ⟨v, hv, hveq⟩
  subst hveq
  have hD2 : (some (fun s => Except.ok (s ++ [v])) :
      Option (List Nat → Except String (List Nat))) = some down := hD
  obtain rfl := Option.some.inj hD2
  exact ⟨s ++ [v], rfl⟩

/-- migrateDown_clamps_and_reverts_witness: the amended C5 applied to
the concrete dense set with versions 1..3, all applied, and requested
amount 5: the amount is clamped and everything is reverted, most recent
first, leaving an empty ledger. -/
theorem migrateDown_clamps_and_reverts_witness :
    ∃ st2, MigrateDownRun (denseSet 3) (denseState 3) 5
        = (DownResult.ok st2, [3, 2, 1])
      ∧ st2.ledger = [] := by
  obtain ⟨st2, heq, hl⟩ := migrateDown_clamps_and_reverts (denseSet 3) (denseState 3) 3 5
    (by omega) (by norm_num) (by omega) (by decide) (by decide) (by decide)
    (denseSet_down_ok 3)
  refine ⟨st2, ?h1, ?h2⟩
  · exact heq
  · rw [hl]
    decide

/-- gapSet is a migration set whose single record has version 5: one
applied migration, but versions are not the dense sequence 1..N. -/
def gapSet : Migrations (List Nat) :=
  [denseMig 5]

/-- gapState is the state reached by MigrateUp of gapSet on a fresh
database: version 5 applied. -/
def gapState : DBState (List Nat) :=
  { ledger := [{ version := 5, description := natDesc 5 }], schema := [] }

/-- migrateDown_nondense_panics refutes C5 as stated: gapSet has N = 1
applied migration and amount k = 1 is not clamped away, yet MigrateDown
does not revert `min(k, N) = 1` migration — the positional lookup
`Sorted()[5-1]` is out of range and the run panics, reverting nothing. -/
theorem migrateDown_nondense_panics :
    MigrateUp gapSet exEmptyState = Except.ok gapState
    ∧ MigrateDownRun gapSet gapState 1 = (DownResult.panic, []) :=
  ⟨rfl, rfl⟩

/-- zeroLedgerState is a ledger holding a row with version value 0 (as
an externally written table could). -/
def zeroLedgerState : DBState (List Nat) :=
  { ledger := [{ version := 0, description := "z" }], schema := [] }

/-- C9: the positional lookup of MigrateDown indexes out of the sorted
list's bounds on reachable ledger states instead of returning an error:
after MigrateUp of the version-5 set (a state reached through the public
API alone), MigrateDown panics because position `5-1` exceeds the list
length; and on a ledger row with version 0 the Go uint subtraction
`index[i]-1` wraps to `2^64 - 1`, likewise a panic. -/
theorem migrateDown_positional_panics :
    MigrateUp gapSet exEmptyState = Except.ok gapState
    ∧ MigrateDown gapSet gapState 1 = DownResult.panic
    ∧ MigrateDown gapSet zeroLedgerState 1 = DownResult.panic :=
  ⟨rfl, rfl, rfl⟩

/-- c2gapSet has versions 1, 3, 4: version values are not positions. -/
def c2gapSet : Migrations (List Nat) :=
  [denseMig 1, denseMig 3, denseMig 4]

/-- c2gapState has versions 1 and 3 applied. -/
def c2gapState : DBState (List Nat) :=
  { ledger := [{ version := 1, description := natDesc 1 },
               { version := 3, description := natDesc 3 }],
    schema := [] }

/-- C2: the record MigrateDown examines for an applied version `v` is
the element of `Sorted()` at 0-based position `v - 1`, not the record
whose Version equals `v`: when the sorted versions are exactly 1..N the
positional choice happens to carry version `v` (first conjunct); with a
gap — set {1,3,4}, applied value 3 — the examined record is the
version-4 record even though a version-3 record exists in the set, and
the concrete Down run consequently fails with the existence error for
version 4 rather than reverting version 3. -/
theorem downSelect_positional :
    (∀ (ms : Migrations (List Nat)) (v : Nat),
        ((Sorted ms).map (fun m => m.Version) = List.range' 1 ms.length) →
        1 ≤ v → v ≤ ms.length → ms.length ≤ 2 ^ 64 →
        ∃ m, downSelect (Sorted ms) v = some m ∧ m.Version = v)
    ∧ (∃ m, downSelect (Sorted c2gapSet) 3 = some m ∧ m.Version = 4)
    ∧ (∃ m ∈ c2gapSet, m.Version = 3)
    ∧ MigrateDown c2gapSet c2gapState 1 = DownResult.error (errNotExists (denseMig 4)) := by
  refine ⟨?hgen, ⟨denseMig 4, rfl, rfl⟩, ⟨denseMig 3, by simp [c2gapSet], rfl⟩, rfl⟩
  intro ms v hmap h1 h2 h64
  have hlen : (Sorted ms).length = ms.length := List.length_insertionSort _ _
  have hlt : v - 1 < (Sorted ms).length := by omega
  have hup : uintPred v = v - 1 := uintPred_pos v h1 (Nat.le_trans h2 h64)
  obtain ⟨m, hsel0⟩ : ∃ m, (Sorted ms)[v - 1]? = some m :=
    ⟨_, List.getElem?_eq_getElem hlt⟩
  refine ⟨m, ?hsel, ?hver⟩
  · unfold downSelect
    rw [hup]
    exact hsel0
  · have hmap2 : ((Sorted ms).map (fun m => m.Version))[v - 1]?
        = (List.range' 1 ms.length)[v - 1]? := by
      rw [hmap]
    rw [List.getElem?_map, hsel0, Option.map_some'] at hmap2
    rw [List.getElem?_range' 1 1 (by omega : v - 1 < ms.length)] at hmap2
    have hv := Option.some.inj hmap2
    omega

/-- downSelect_positional_witness: on the dense set {1,2,3} the
positional lookup for applied value 2 selects the version-2 record. -/
theorem downSelect_positional_witness :
    ∃ m, downSelect (Sorted (denseSet 3)) 2 = some m ∧ m.Version = 2 :=
  downSelect_positional.1 (denseSet 3) 2 (by decide) (by decide) (by decide) (by decide)
